import Mathlib

/-!
Verification of the Minesweeper reasoning engine (`src/minesweeper/ai.py`).

The Python program is shallowly embedded: a `Sentence` is a finite set of
board cells together with an integer mine count, and `MinesweeperAI` is the
reasoner state.  Python's in-place mutation of the sentences held by the
knowledge list is modelled by pure record updates mapped over the list (each
sentence object is referenced only by the list, so value semantics agree).
The closure loop of `add_knowledge` iterates over a list that grows while it
is being iterated; `infer_loop` reproduces Python's list-iterator semantics
(an index compared against the current length) and, like the surrounding
`while` loop, is driven by an explicit fuel because the source loop does not
terminate on all inputs.
-/

abbrev Cell : Type := ℤ × ℤ

/-- A logical statement about the game: exactly `count` of `cells` are mines.
Mirrors class `Sentence` of `ai.py` (equality is by `cells` and `count`). -/
structure Sentence where
  cells : Finset Cell
  count : ℤ
deriving DecidableEq

namespace Sentence

/-- `Sentence.isempty`: `len(self.cells) == 0`. -/
def isempty (s : Sentence) : Bool := s.cells.card == 0

/-- `Sentence.__sub__`: `Sentence(self.cells.difference(other.cells), self.count - other.count)`. -/
def sub (s other : Sentence) : Sentence := ⟨s.cells \ other.cells, s.count - other.count⟩

/-- `Sentence.known_mines`: all of `cells` if the sentence is non-empty and
`len(self.cells) == self.count`, else the empty set. -/
def known_mines (s : Sentence) : Finset Cell :=
  if s.isempty = false ∧ (s.cells.card : ℤ) = s.count then s.cells else ∅

/-- `Sentence.known_safes`: all of `cells` if `count == 0`, else the empty set. -/
def known_safes (s : Sentence) : Finset Cell :=
  if s.count = 0 then s.cells else ∅

/-- `Sentence.mark_mine`: if the cell is a member, remove it and decrement `count`. -/
def mark_mine (s : Sentence) (c : Cell) : Sentence :=
  if c ∈ s.cells then ⟨s.cells.erase c, s.count - 1⟩ else s

/-- `Sentence.mark_safe`: if the cell is a member, remove it (no count change). -/
def mark_safe (s : Sentence) (c : Cell) : Sentence :=
  if c ∈ s.cells then ⟨s.cells.erase c, s.count⟩ else s

end Sentence

/-- The reasoner state: fields of `MinesweeperAI.__init__` (lines 78-93). -/
structure MinesweeperAI where
  height : ℤ
  width : ℤ
  total_mines : ℤ
  moves_made : Finset Cell
  mines : Finset Cell
  safes : Finset Cell
  knowledge : List Sentence
  last_move : Option Cell
deriving DecidableEq

/-- The in-bounds board cells `[0,height) × [0,width)`. -/
def board (h w : ℤ) : Finset Cell := Finset.Icc 0 (h - 1) ×ˢ Finset.Icc 0 (w - 1)

namespace MinesweeperAI

/-- The reasoner state as `__init__` builds it once `height`, `width` and
`total_mines` are known: every collection starts empty. -/
def init (h w tm : ℤ) : MinesweeperAI :=
  ⟨h, w, tm, ∅, ∅, ∅, [], none⟩

/-- `MinesweeperAI.mark_mine`: add the cell to `mines` and mark it in every sentence. -/
def mark_mine (st : MinesweeperAI) (c : Cell) : MinesweeperAI :=
  { st with mines := insert c st.mines,
            knowledge := st.knowledge.map (fun s => s.mark_mine c) }

/-- `MinesweeperAI.mark_safe`: add the cell to `safes` and mark it in every sentence. -/
def mark_safe (st : MinesweeperAI) (c : Cell) : MinesweeperAI :=
  { st with safes := insert c st.safes,
            knowledge := st.knowledge.map (fun s => s.mark_safe c) }

/-- `mark_safe` with the arguments flipped, for folding over a cell set. -/
def mark_safe_upd (c : Cell) (st : MinesweeperAI) : MinesweeperAI := st.mark_safe c

/-- `mark_mine` with the arguments flipped, for folding over a cell set. -/
def mark_mine_upd (c : Cell) (st : MinesweeperAI) : MinesweeperAI := st.mark_mine c

theorem sentence_mark_safe_comm (s : Sentence) (a b : Cell) :
    (s.mark_safe a).mark_safe b = (s.mark_safe b).mark_safe a := by
  rcases eq_or_ne a b with rfl | hab
  · rfl
  · unfold Sentence.mark_safe
    by_cases ha : a ∈ s.cells <;> by_cases hb : b ∈ s.cells <;>
      simp [ha, hb, Finset.mem_erase, hab, hab.symm, Finset.erase_right_comm]

theorem sentence_mark_mine_comm (s : Sentence) (a b : Cell) :
    (s.mark_mine a).mark_mine b = (s.mark_mine b).mark_mine a := by
  rcases eq_or_ne a b with rfl | hab
  · rfl
  · unfold Sentence.mark_mine
    by_cases ha : a ∈ s.cells <;> by_cases hb : b ∈ s.cells <;>
      simp [ha, hb, Finset.mem_erase, hab, hab.symm, Finset.erase_right_comm]

instance : LeftCommutative mark_safe_upd :=
  ⟨fun a b st => by
    cases st with
    | mk h w tm mm mi sa kn lm =>
      simp only [mark_safe_upd, mark_safe, List.map_map, MinesweeperAI.mk.injEq,
        true_and, and_true]
      exact ⟨Finset.Insert.comm _ _ _,
        List.map_congr_left fun s _ => by simpa using sentence_mark_safe_comm s b a⟩⟩

instance : LeftCommutative mark_mine_upd :=
  ⟨fun a b st => by
    cases st with
    | mk h w tm mm mi sa kn lm =>
      simp only [mark_mine_upd, mark_mine, List.map_map, MinesweeperAI.mk.injEq,
        true_and, and_true]
      exact ⟨Finset.Insert.comm _ _ _,
        List.map_congr_left fun s _ => by simpa using sentence_mark_mine_comm s b a⟩⟩

/-- `for safe in safes: self.mark_safe(safe)`: iterate `mark_safe` over the
cell set (the iteration order of a Python set is unspecified, and the marks
commute, so folding over the multiset is well defined). -/
def mark_safe_set (st : MinesweeperAI) (S : Finset Cell) : MinesweeperAI :=
  Multiset.foldr mark_safe_upd st S.val

/-- `for mine in mines: self.mark_mine(mine)`. -/
def mark_mine_set (st : MinesweeperAI) (S : Finset Cell) : MinesweeperAI :=
  Multiset.foldr mark_mine_upd st S.val

/-- The union of `known_safes()` over the knowledge list (`safes.update(...)`). -/
def safes_found (K : List Sentence) : Finset Cell :=
  K.foldr (fun s acc => s.known_safes ∪ acc) ∅

/-- The union of `known_mines()` over the knowledge list (`mines.update(...)`). -/
def mines_found (K : List Sentence) : Finset Cell :=
  K.foldr (fun s acc => s.known_mines ∪ acc) ∅

/-- The 8-neighbourhood scanned by the `for i ... for j ...` loops of
`add_knowledge` (the cell itself is skipped by the `(i, j) == cell` test). -/
def nbhd (c : Cell) : Finset Cell :=
  {(c.1 - 1, c.2 - 1), (c.1 - 1, c.2), (c.1 - 1, c.2 + 1),
   (c.1, c.2 - 1), (c.1, c.2 + 1),
   (c.1 + 1, c.2 - 1), (c.1 + 1, c.2), (c.1 + 1, c.2 + 1)}

/-- The sentence built in step 3 of `add_knowledge` from the state `st` as it
is after step 2: neighbours already safe are skipped, neighbours already known
mines are skipped and decrement the count, and the rest are kept when in
bounds. -/
def newSentence (st : MinesweeperAI) (cell : Cell) (count : ℤ) : Sentence :=
  ⟨(nbhd cell).filter (fun p => p ∉ st.safes ∧ p ∉ st.mines ∧
      0 ≤ p.1 ∧ p.1 < st.height ∧ 0 ≤ p.2 ∧ p.2 < st.width),
   count - ((nbhd cell).filter (fun p => p ∉ st.safes ∧ p ∈ st.mines)).card⟩

/-- The pairwise inference scan (`for s1 in self.knowledge: for s2 in ...`).
Python iterators over a list compare a running index with the *current*
length, so sentences appended during the scan are themselves scanned;
`i`/`j` are those indices and the fuel makes the partiality explicit. -/
def infer_loop : ℕ → List Sentence → ℕ → ℕ → Bool → Option (List Sentence × Bool)
  | 0, _, _, _, _ => none
  | f + 1, K, i, j, ch =>
    if hi : i < K.length then
      if hj : j < K.length then
        if K.get ⟨i, hi⟩ = K.get ⟨j, hj⟩ then infer_loop f K i (j + 1) ch
        else if (K.get ⟨i, hi⟩).cells ⊆ (K.get ⟨j, hj⟩).cells then
          if (K.get ⟨j, hj⟩).sub (K.get ⟨i, hi⟩) ∈ K then infer_loop f K i (j + 1) ch
          else infer_loop f (K ++ [(K.get ⟨j, hj⟩).sub (K.get ⟨i, hi⟩)]) i (j + 1) true
        else infer_loop f K i (j + 1) ch
      else infer_loop f K (i + 1) 0 ch
    else some (K, ch)

/-- The marking phase of one closure round: the `known_safes` and
`known_mines` unions are both computed from the knowledge base as it is at
the start of the round, then all the safes are marked, then all the mines. -/
def roundMark (st : MinesweeperAI) : MinesweeperAI :=
  mark_mine_set (mark_safe_set st (safes_found st.knowledge)) (mines_found st.knowledge)

/-- `self.knowledge = [s for s in self.knowledge if not s.isempty()]`. -/
def roundClean (st : MinesweeperAI) : MinesweeperAI :=
  { st with knowledge := st.knowledge.filter (fun s => ! s.isempty) }

/-- One pass of the `while Changed` loop of `add_knowledge`: collect the
known safes and mines over the whole knowledge base, mark them, drop the
emptied sentences, then run the pairwise inference scan.  Returns the new
state and whether the pass made progress (`Changed`). -/
def runRound (sf : ℕ) (st : MinesweeperAI) : Option (MinesweeperAI × Bool) :=
  match infer_loop sf (roundClean (roundMark st)).knowledge 0 0 false with
  | none => none
  | some (K, ch2) =>
      some ({ roundClean (roundMark st) with knowledge := K },
        (decide (safes_found st.knowledge ≠ ∅) ||
          decide (mines_found st.knowledge ≠ ∅)) || ch2)

/-- The `while Changed` loop: repeat rounds until one makes no progress.
`none` means the fuel ran out before a fixed point was reached. -/
def closure : ℕ → ℕ → MinesweeperAI → Option MinesweeperAI
  | 0, _, _ => none
  | f + 1, sf, st =>
    match runRound sf st with
    | none => none
    | some (st', ch) => if ch then closure f sf st' else some st'

/-- Steps 1 and 2 of `add_knowledge`: record the move in `moves_made` and
`last_move`, then `self.mark_safe(cell)`. -/
def observe (st : MinesweeperAI) (cell : Cell) : MinesweeperAI :=
  mark_safe { st with moves_made := insert cell st.moves_made, last_move := some cell } cell

/-- Steps 1-3 of `add_knowledge`: observe the cell and append the new sentence. -/
def absorb (st : MinesweeperAI) (cell : Cell) (count : ℤ) : MinesweeperAI :=
  let st2 := observe st cell
  { st2 with knowledge := st2.knowledge ++ [newSentence st2 cell count] }

/-- `MinesweeperAI.add_knowledge`: record the move, mark the cell safe, append
the observation sentence, then run the closure loop to a fixed point. -/
def add_knowledge (of sf : ℕ) (st : MinesweeperAI) (cell : Cell) (count : ℤ) :
    Option MinesweeperAI :=
  closure of sf (absorb st cell count)

end MinesweeperAI

/-! ## Basic lemmas about the embedded operations -/

namespace Sentence

theorem mark_safe_eq (s : Sentence) (c : Cell) :
    s.mark_safe c = ⟨s.cells.erase c, s.count⟩ := by
  unfold mark_safe
  split_ifs with h
  · rfl
  · cases s with
    | mk cs ct => simpa using (Finset.erase_eq_of_not_mem h).symm

theorem mark_mine_of_not_mem {s : Sentence} {c : Cell} (h : c ∉ s.cells) :
    s.mark_mine c = s := by
  unfold mark_mine
  exact if_neg h

theorem sub_cells_subset (s other : Sentence) : (s.sub other).cells ⊆ s.cells := by
  unfold sub
  simp [Finset.sdiff_subset]

end Sentence

namespace MinesweeperAI

theorem mem_safes_found {K : List Sentence} {c : Cell} :
    c ∈ safes_found K ↔ ∃ s ∈ K, c ∈ s.known_safes := by
  induction K with
  | nil => simp [safes_found]
  | cons s K ih =>
      simp only [safes_found, List.foldr_cons, Finset.mem_union, List.mem_cons]
      rw [safes_found] at ih
      rw [ih]
      constructor
      · rintro (h | ⟨t, ht, hc⟩)
        · exact ⟨s, Or.inl rfl, h⟩
        · exact ⟨t, Or.inr ht, hc⟩
      · rintro ⟨t, (rfl | ht), hc⟩
        · exact Or.inl hc
        · exact Or.inr ⟨t, ht, hc⟩

theorem mem_mines_found {K : List Sentence} {c : Cell} :
    c ∈ mines_found K ↔ ∃ s ∈ K, c ∈ s.known_mines := by
  induction K with
  | nil => simp [mines_found]
  | cons s K ih =>
      simp only [mines_found, List.foldr_cons, Finset.mem_union, List.mem_cons]
      rw [mines_found] at ih
      rw [ih]
      constructor
      · rintro (h | ⟨t, ht, hc⟩)
        · exact ⟨s, Or.inl rfl, h⟩
        · exact ⟨t, Or.inr ht, hc⟩
      · rintro ⟨t, (rfl | ht), hc⟩
        · exact Or.inl hc
        · exact Or.inr ⟨t, ht, hc⟩

theorem mark_safe_set_empty (st : MinesweeperAI) : mark_safe_set st ∅ = st := rfl

theorem mark_mine_set_empty (st : MinesweeperAI) : mark_mine_set st ∅ = st := rfl

theorem mark_safe_set_insert (st : MinesweeperAI) {S : Finset Cell} {a : Cell}
    (ha : a ∉ S) : mark_safe_set st (insert a S) = (mark_safe_set st S).mark_safe a := by
  unfold mark_safe_set
  rw [Finset.insert_val_of_not_mem ha, Multiset.foldr_cons]
  rfl

theorem mark_mine_set_insert (st : MinesweeperAI) {S : Finset Cell} {a : Cell}
    (ha : a ∉ S) : mark_mine_set st (insert a S) = (mark_mine_set st S).mark_mine a := by
  unfold mark_mine_set
  rw [Finset.insert_val_of_not_mem ha, Multiset.foldr_cons]
  rfl

theorem erase_sdiff_insert (X S : Finset Cell) (a : Cell) :
    (X \ S).erase a = X \ insert a S := by
  ext p
  simp only [Finset.mem_erase, Finset.mem_sdiff, Finset.mem_insert]
  tauto

/-- Marking a whole set of safe cells: the set lands in `safes` and is removed
from every sentence, counts untouched. -/
theorem mark_safe_set_eq (st : MinesweeperAI) (S : Finset Cell) :
    mark_safe_set st S =
      { st with safes := st.safes ∪ S,
                knowledge := st.knowledge.map (fun s => ⟨s.cells \ S, s.count⟩) } := by
  induction S using Finset.induction_on with
  | empty =>
      rw [mark_safe_set_empty]
      cases st with
      | mk h w tm mm mi sa kn lm =>
        simp [List.map_id'']
  | insert ha ih =>
      rw [mark_safe_set_insert st ha, ih]
      cases st with
      | mk h w tm mm mi sa kn lm =>
        simp only [mark_safe, List.map_map, MinesweeperAI.mk.injEq, true_and, and_true]
        constructor
        · rw [Finset.union_insert]
        · refine List.map_congr_left fun s _ => ?_
          simp only [Function.comp_apply, Sentence.mark_safe_eq]
          rw [erase_sdiff_insert]

theorem sentence_mark_mine_sdiff (s : Sentence) {S : Finset Cell} {a : Cell}
    (ha : a ∉ S) :
    Sentence.mark_mine ⟨s.cells \ S, s.count - ((s.cells ∩ S).card : ℤ)⟩ a =
      ⟨s.cells \ insert a S, s.count - ((s.cells ∩ insert a S).card : ℤ)⟩ := by
  unfold Sentence.mark_mine
  by_cases h : a ∈ s.cells
  · have hmem : a ∈ s.cells \ S := Finset.mem_sdiff.mpr ⟨h, ha⟩
    rw [if_pos hmem]
    have hins : s.cells ∩ insert a S = insert a (s.cells ∩ S) := by
      ext p
      simp only [Finset.mem_inter, Finset.mem_insert]
      constructor
      · rintro ⟨hp, rfl | hp2⟩
        · exact Or.inl rfl
        · exact Or.inr ⟨hp, hp2⟩
      · rintro (rfl | ⟨hp, hp2⟩)
        · exact ⟨h, Or.inl rfl⟩
        · exact ⟨hp, Or.inr hp2⟩
    have hnotmem : a ∉ s.cells ∩ S := fun hc => ha (Finset.mem_inter.mp hc).2
    simp only [Sentence.mk.injEq]
    constructor
    · exact erase_sdiff_insert _ _ _
    · rw [hins, Finset.card_insert_of_not_mem hnotmem]
      push_cast
      ring
  · have hmem : a ∉ s.cells \ S := fun hc => h (Finset.mem_sdiff.mp hc).1
    rw [if_neg hmem]
    have h1 : s.cells \ insert a S = s.cells \ S := by
      ext p
      simp only [Finset.mem_sdiff, Finset.mem_insert]
      constructor
      · rintro ⟨hp, hp2⟩
        exact ⟨hp, fun hs => hp2 (Or.inr hs)⟩
      · rintro ⟨hp, hp2⟩
        refine ⟨hp, ?_⟩
        rintro (rfl | hs)
        · exact h hp
        · exact hp2 hs
    have h2 : s.cells ∩ insert a S = s.cells ∩ S := by
      ext p
      simp only [Finset.mem_inter, Finset.mem_insert]
      constructor
      · rintro ⟨hp, rfl | hp2⟩
        · exact absurd hp h
        · exact ⟨hp, hp2⟩
      · rintro ⟨hp, hp2⟩
        exact ⟨hp, Or.inr hp2⟩
    rw [h1, h2]

/-- Marking a whole set of mine cells: the set lands in `mines`, is removed
from every sentence, and each sentence's count drops by the number of its
cells that were marked. -/
theorem mark_mine_set_eq (st : MinesweeperAI) (S : Finset Cell) :
    mark_mine_set st S =
      { st with mines := st.mines ∪ S,
                knowledge := st.knowledge.map
                  (fun s => ⟨s.cells \ S, s.count - ((s.cells ∩ S).card : ℤ)⟩) } := by
  induction S using Finset.induction_on with
  | empty =>
      rw [mark_mine_set_empty]
      cases st with
      | mk h w tm mm mi sa kn lm =>
        simp [List.map_id'']
  | insert ha ih =>
      rename_i a S
      rw [mark_mine_set_insert st ha, ih]
      cases st with
      | mk h w tm mm mi sa kn lm =>
        simp only [mark_mine, List.map_map, MinesweeperAI.mk.injEq, true_and, and_true]
        constructor
        · rw [Finset.union_insert]
        · exact List.map_congr_left fun s _ => sentence_mark_mine_sdiff s ha

end MinesweeperAI

namespace MinesweeperAI

theorem observe_safes (st : MinesweeperAI) (c : Cell) :
    (observe st c).safes = insert c st.safes := rfl

theorem observe_mines (st : MinesweeperAI) (c : Cell) :
    (observe st c).mines = st.mines := rfl

theorem observe_height (st : MinesweeperAI) (c : Cell) :
    (observe st c).height = st.height := rfl

theorem observe_width (st : MinesweeperAI) (c : Cell) :
    (observe st c).width = st.width := rfl

theorem observe_knowledge (st : MinesweeperAI) (c : Cell) :
    (observe st c).knowledge = st.knowledge.map (fun s => s.mark_safe c) := rfl

theorem not_mem_nbhd (c : Cell) : c ∉ nbhd c := by
  simp only [nbhd, Finset.mem_insert, Finset.mem_singleton, Prod.ext_iff]
  omega

end MinesweeperAI

/-! ## The configuration layer of `__init__` (lines 70-80)

`__init__` opens `state_file_path` in text mode and parses it with
`json.load`, falling back to the empty dict `{}` when the attempt raises
`IOError` or `json.JSONDecodeError` — and only then: reading a file whose
bytes do not decode as text raises `UnicodeDecodeError` inside `json.load`,
which is neither an `IOError` nor a `json.JSONDecodeError`, so it escapes
the `except` clause and propagates to the caller.  After that, `__init__`
reads `n_rows`, `n_cols`, `n_mines` with `dict.get(key, 10)`.  The file
interaction itself is outside the program text, so the model takes the
outcome of the open-read-parse attempt as input.  JSON keys are abstracted
into an inductive (only the three known keys matter); `dict.get` on a value
that is not a dict raises `AttributeError`, which the `except` clause also
does not catch, so the model returns it as an error. -/

inductive JKey
  | n_rows
  | n_cols
  | n_mines
  | other (n : ℕ)
deriving DecidableEq

inductive Json
  | num (n : ℤ)
  | bool (b : Bool)
  | null
  | arr (elems : List Json)
  | obj (fields : List (JKey × Json))

/-- Python errors the `except (IOError, json.JSONDecodeError)` clause does
not catch, so they escape `__init__`: `AttributeError` from `.get` on a
non-dict, and `UnicodeDecodeError` from a file whose bytes do not decode as
text. -/
inductive PyError
  | attributeError
  | unicodeDecodeError

/-- The outcome of `open(...)` plus `json.load(...)`: the open or read can
fail (`IOError`: missing or unreadable file), the file's bytes can fail to
decode as text (`UnicodeDecodeError`), the decoded text can fail to parse
(`json.JSONDecodeError`: unparseable contents), or a JSON value is
produced. -/
inductive ConfigSource
  | readFailure
  | undecodable
  | parseFailure
  | parsed (j : Json)

/-- `state.get(key, default)`.  Python's JSON parser keeps the last duplicate
key, hence the lookup on the reversed field list. -/
def jsonGet : Json → JKey → Json → Except PyError Json
  | Json.obj fields, k, dflt => Except.ok ((fields.reverse.lookup k).getD dflt)
  | _, _, _ => Except.error PyError.attributeError

/-- Lines 70-80 of `ai.py`: `state = {}` when the attempt raises `IOError`
or `json.JSONDecodeError`; a `UnicodeDecodeError` from an undecodable file
is caught by neither arm of the `except` clause and propagates.  Then the
three fields are read with `state.get(key, 10)`.  Returns the values
assigned to `self.height`, `self.width` and `self.total_mines`, or the
Python error that escapes the constructor. -/
def configFields (src : ConfigSource) : Except PyError (Json × Json × Json) := do
  let state : Json ←
    match src with
    | ConfigSource.readFailure => Except.ok (Json.obj [])
    | ConfigSource.undecodable => Except.error PyError.unicodeDecodeError
    | ConfigSource.parseFailure => Except.ok (Json.obj [])
    | ConfigSource.parsed j => Except.ok j
  let r ← jsonGet state JKey.n_rows (Json.num 10)
  let c ← jsonGet state JKey.n_cols (Json.num 10)
  let m ← jsonGet state JKey.n_mines (Json.num 10)
  Except.ok (r, c, m)

/-- Building the reasoner state from integer configuration values. -/
def aiFromFields : Json × Json × Json → Option MinesweeperAI
  | (Json.num r, Json.num c, Json.num m) => some (MinesweeperAI.init r c m)
  | _ => none

/-! ## Claim theorems -/

open MinesweeperAI

/-- C5: for sentences `A`, `B` with `A.cells ⊆ B.cells`, the subtraction
`B - A` (`Sentence.__sub__`) returns the sentence with cells
`B.cells \ A.cells` and count `B.count - A.count`; the embedding is pure, so
neither argument is modified. -/
theorem claim_C5 (A B : Sentence) (h : A.cells ⊆ B.cells) :
    (B.sub A).cells = B.cells \ A.cells ∧ (B.sub A).count = B.count - A.count :=
  ⟨rfl, rfl⟩

theorem claim_C5_witness :
    ((⟨∅, 0⟩ : Sentence).cells ⊆ (⟨{((0 : ℤ), (0 : ℤ))}, 1⟩ : Sentence).cells) ∧
    ((Sentence.sub ⟨{((0 : ℤ), (0 : ℤ))}, 1⟩ ⟨∅, 0⟩).cells =
        (⟨{((0 : ℤ), (0 : ℤ))}, 1⟩ : Sentence).cells \ (⟨∅, 0⟩ : Sentence).cells ∧
      (Sentence.sub ⟨{((0 : ℤ), (0 : ℤ))}, 1⟩ ⟨∅, 0⟩).count =
        (⟨{((0 : ℤ), (0 : ℤ))}, 1⟩ : Sentence).count - (⟨∅, 0⟩ : Sentence).count) :=
  ⟨by decide, claim_C5 ⟨∅, 0⟩ ⟨{((0 : ℤ), (0 : ℤ))}, 1⟩ (by decide)⟩

/-- C9: `Sentence.__sub__` is total, with no containment check: for all
sentences `A`, `B` (subset or not) it returns cells `B.cells \ A.cells` and
count `B.count - A.count`, which can be negative. -/
theorem claim_C9 :
    (∀ A B : Sentence,
      (B.sub A).cells = B.cells \ A.cells ∧ (B.sub A).count = B.count - A.count) ∧
    (Sentence.sub ⟨∅, 0⟩ ⟨{((0 : ℤ), (0 : ℤ))}, 5⟩).count < 0 :=
  ⟨fun _ _ => ⟨rfl, rfl⟩, by decide⟩

theorem sentence_mark_safe_idem (s : Sentence) (c : Cell) :
    (s.mark_safe c).mark_safe c = s.mark_safe c := by
  rw [Sentence.mark_safe_eq s c, Sentence.mark_safe_eq]
  simp

theorem sentence_mark_mine_idem (s : Sentence) (c : Cell) :
    (s.mark_mine c).mark_mine c = s.mark_mine c := by
  refine Sentence.mark_mine_of_not_mem ?_
  unfold Sentence.mark_mine
  split_ifs with h
  · simp
  · exact h

/-- C8: the reasoner's `mark_safe` and `mark_mine` are idempotent on every
state: calling either twice with the same cell gives exactly the state of a
single call (all of `safes`, `mines` and each sentence's cells and count). -/
theorem claim_C8 (st : MinesweeperAI) (c : Cell) :
    (st.mark_safe c).mark_safe c = st.mark_safe c ∧
    (st.mark_mine c).mark_mine c = st.mark_mine c := by
  constructor
  · cases st with
    | mk h w tm mm mi sa kn lm =>
      simp only [MinesweeperAI.mark_safe, List.map_map, MinesweeperAI.mk.injEq,
        true_and, and_true]
      exact ⟨Finset.insert_idem _ _,
        List.map_congr_left fun s _ => by simpa using sentence_mark_safe_idem s c⟩
  · cases st with
    | mk h w tm mm mi sa kn lm =>
      simp only [MinesweeperAI.mark_mine, List.map_map, MinesweeperAI.mk.injEq,
        true_and, and_true]
      exact ⟨Finset.insert_idem _ _,
        List.map_congr_left fun s _ => by simpa using sentence_mark_mine_idem s c⟩

/-- C6: the sentence appended in step 3 of `add_knowledge(cell, count)` (the
state having just gone through steps 1-2, i.e. `observe`) has as cells the
in-bounds 8-neighbours of `cell` minus the cells already in `safes` or
`mines` (and never `cell` itself), and as count the argument `count` minus
the number of neighbours of `cell` already in `mines`; stated for states
whose `safes` and `mines` are disjoint, as the spec's invariant guarantees. -/
theorem claim_C6 (st : MinesweeperAI) (cell : Cell) (count : ℤ)
    (hdisj : st.safes ∩ st.mines = ∅) :
    (newSentence (observe st cell) cell count).cells =
      ((nbhd cell).filter
          (fun p => 0 ≤ p.1 ∧ p.1 < st.height ∧ 0 ≤ p.2 ∧ p.2 < st.width))
        \ (st.safes ∪ st.mines) ∧
    (newSentence (observe st cell) cell count).count =
      count - ((nbhd cell ∩ st.mines).card : ℤ) ∧
    cell ∉ (newSentence (observe st cell) cell count).cells := by
  have hdisj' : ∀ p, p ∈ st.safes → p ∉ st.mines := by
    intro p hs hm
    have : p ∈ st.safes ∩ st.mines := Finset.mem_inter.mpr ⟨hs, hm⟩
    rw [hdisj] at this
    exact absurd this (Finset.not_mem_empty p)
  have hne : ∀ p : Cell, p ∈ nbhd cell → p ≠ cell := by
    rintro p hp rfl
    exact not_mem_nbhd p hp
  refine ⟨?_, ?_, ?_⟩
  · ext p
    simp only [newSentence, observe_safes, observe_mines, observe_height,
      observe_width, Finset.mem_filter, Finset.mem_sdiff, Finset.mem_union,
      Finset.mem_insert]
    constructor
    · rintro ⟨hp, hs, hm, hb⟩
      exact ⟨⟨hp, hb⟩, fun hc => hc.elim (fun h1 => hs (Or.inr h1)) hm⟩
    · rintro ⟨⟨hp, hb⟩, hsm⟩
      refine ⟨hp, ?_, fun hm => hsm (Or.inr hm), hb⟩
      rintro (h1 | h2)
      · exact hne p hp h1
      · exact hsm (Or.inl h2)
  · have hfil : (nbhd cell).filter
        (fun p => p ∉ (observe st cell).safes ∧ p ∈ (observe st cell).mines) =
        nbhd cell ∩ st.mines := by
      ext p
      simp only [observe_safes, observe_mines, Finset.mem_filter,
        Finset.mem_inter, Finset.mem_insert]
      constructor
      · rintro ⟨hp, _, hm⟩
        exact ⟨hp, hm⟩
      · rintro ⟨hp, hm⟩
        refine ⟨hp, ?_, hm⟩
        rintro (h1 | h2)
        · exact hne p hp h1
        · exact hdisj' p h2 hm
    show count - (((nbhd cell).filter _).card : ℤ) = _
    rw [hfil]
  · intro hc
    have : cell ∈ nbhd cell := (Finset.mem_filter.mp hc).1
    exact not_mem_nbhd cell this

theorem claim_C6_witness :
    ((MinesweeperAI.init 3 3 1).safes ∩ (MinesweeperAI.init 3 3 1).mines = ∅) ∧
    ((newSentence (observe (MinesweeperAI.init 3 3 1) (0, 0)) (0, 0) 2).cells =
        ((nbhd (0, 0)).filter
            (fun p => 0 ≤ p.1 ∧ p.1 < (MinesweeperAI.init 3 3 1).height ∧
              0 ≤ p.2 ∧ p.2 < (MinesweeperAI.init 3 3 1).width))
          \ ((MinesweeperAI.init 3 3 1).safes ∪ (MinesweeperAI.init 3 3 1).mines) ∧
      (newSentence (observe (MinesweeperAI.init 3 3 1) (0, 0)) (0, 0) 2).count =
        2 - ((nbhd (0, 0) ∩ (MinesweeperAI.init 3 3 1).mines).card : ℤ) ∧
      (0, 0) ∉ (newSentence (observe (MinesweeperAI.init 3 3 1) (0, 0)) (0, 0) 2).cells) :=
  ⟨by decide, claim_C6 (MinesweeperAI.init 3 3 1) (0, 0) 2 (by decide)⟩

/-- C7 (amended): when the configuration file is missing or unreadable
(`IOError`) or its decoded contents are unparseable (`json.JSONDecodeError`),
the handler substitutes the empty dict and all three fields default: the
reasoner is built as `init 10 10 10` and those two failures never reach the
caller; on any parsed JSON dict each of `n_rows`, `n_cols`, `n_mines`
independently defaults to 10 exactly when its key is missing.  But the
original claim's "no parse or read failure ever propagates" is false of the
code: a readable file whose bytes do not decode as text raises
`UnicodeDecodeError` out of `json.load`, which
`except (IOError, json.JSONDecodeError)` does not catch, so that failure
propagates to the caller instead of yielding the defaults. -/
theorem claim_C7 :
    configFields ConfigSource.readFailure =
      Except.ok (Json.num 10, Json.num 10, Json.num 10) ∧
    configFields ConfigSource.parseFailure =
      Except.ok (Json.num 10, Json.num 10, Json.num 10) ∧
    aiFromFields (Json.num 10, Json.num 10, Json.num 10) =
      some (MinesweeperAI.init 10 10 10) ∧
    configFields ConfigSource.undecodable =
      Except.error PyError.unicodeDecodeError ∧
    (∀ fields : List (JKey × Json),
      configFields (ConfigSource.parsed (Json.obj fields)) =
        Except.ok ((fields.reverse.lookup JKey.n_rows).getD (Json.num 10),
          (fields.reverse.lookup JKey.n_cols).getD (Json.num 10),
          (fields.reverse.lookup JKey.n_mines).getD (Json.num 10))) := by
  refine ⟨rfl, rfl, rfl, rfl, fun fields => ?_⟩
  have hget : ∀ (k : JKey) (d : Json),
      jsonGet (Json.obj fields) k d =
        Except.ok ((fields.reverse.lookup k).getD d) := fun _ _ => rfl
  show (do
      let r ← jsonGet (Json.obj fields) JKey.n_rows (Json.num 10)
      let c ← jsonGet (Json.obj fields) JKey.n_cols (Json.num 10)
      let m ← jsonGet (Json.obj fields) JKey.n_mines (Json.num 10)
      Except.ok (r, c, m)) = _
  rw [hget, hget, hget]
  rfl

/-- C7, counterexample to the original claim: with a configuration file
whose contents are unparseable because its bytes do not decode as text, the
constructor does not fall back to the defaults — the read failure
(`UnicodeDecodeError`) propagates to the caller, since the `except` clause
names only `IOError` and `json.JSONDecodeError`. -/
theorem claim_C7_counterexample :
    configFields ConfigSource.undecodable =
      Except.error PyError.unicodeDecodeError ∧
    ∀ r c m : Json, configFields ConfigSource.undecodable ≠ Except.ok (r, c, m) :=
  ⟨rfl, fun _ _ _ h => Except.noConfusion h⟩

/-! ## The inference scan at a fixed point -/

namespace MinesweeperAI

theorem infer_loop_changed :
    ∀ {f : ℕ} {K : List Sentence} {i j : ℕ} {r},
      infer_loop f K i j true = some r → r.2 = true := by
  intro f
  induction f with
  | zero =>
      intro K i j r h
      exact absurd h (by rw [infer_loop]; exact Option.noConfusion)
  | succ f ih =>
      intro K i j r h
      rw [infer_loop] at h
      by_cases hi : i < K.length
      · rw [dif_pos hi] at h
        by_cases hj : j < K.length
        · rw [dif_pos hj] at h
          by_cases h12 : K.get ⟨i, hi⟩ = K.get ⟨j, hj⟩
          · rw [if_pos h12] at h
            exact ih h
          · rw [if_neg h12] at h
            by_cases hsub : (K.get ⟨i, hi⟩).cells ⊆ (K.get ⟨j, hj⟩).cells
            · rw [if_pos hsub] at h
              by_cases hmem : (K.get ⟨j, hj⟩).sub (K.get ⟨i, hi⟩) ∈ K
              · rw [if_pos hmem] at h
                exact ih h
              · rw [if_neg hmem] at h
                exact ih h
            · rw [if_neg hsub] at h
              exact ih h
        · rw [dif_neg hj] at h
          exact ih h
      · rw [dif_neg hi] at h
        injection h with h'
        rw [← h']

/-- If the scan finishes reporting no progress, the list is unchanged and
every ordered pair at or after the start position already satisfies the
subset-inference rule. -/
theorem infer_loop_nochange :
    ∀ {f : ℕ} {K : List Sentence} {i j : ℕ} {K' : List Sentence},
      infer_loop f K i j false = some (K', false) →
      K' = K ∧
      ∀ p q (hp : p < K.length) (hq : q < K.length),
        (i < p ∨ (i = p ∧ j ≤ q)) →
        K.get ⟨p, hp⟩ ≠ K.get ⟨q, hq⟩ →
        (K.get ⟨p, hp⟩).cells ⊆ (K.get ⟨q, hq⟩).cells →
        (K.get ⟨q, hq⟩).sub (K.get ⟨p, hp⟩) ∈ K := by
  intro f
  induction f with
  | zero =>
      intro K i j K' h
      exact absurd h (by rw [infer_loop]; exact Option.noConfusion)
  | succ f ih =>
      intro K i j K' h
      rw [infer_loop] at h
      by_cases hi : i < K.length
      · rw [dif_pos hi] at h
        by_cases hj : j < K.length
        · rw [dif_pos hj] at h
          by_cases h12 : K.get ⟨i, hi⟩ = K.get ⟨j, hj⟩
          · rw [if_pos h12] at h
            obtain ⟨hK, hpairs⟩ := ih h
            refine ⟨hK, fun p q hp hq hord hne hsub => ?_⟩
            by_cases hpq : p = i ∧ q = j
            · obtain ⟨rfl, rfl⟩ := hpq
              exact absurd h12 hne
            · refine hpairs p q hp hq ?_ hne hsub
              rcases hord with h1 | ⟨rfl, h2⟩
              · exact Or.inl h1
              · rcases Nat.lt_or_ge j q with hlt | hge
                · exact Or.inr ⟨rfl, hlt⟩
                · have : q = j := Nat.le_antisymm hge h2
                  exact absurd ⟨rfl, this⟩ hpq
          · rw [if_neg h12] at h
            by_cases hsub0 : (K.get ⟨i, hi⟩).cells ⊆ (K.get ⟨j, hj⟩).cells
            · rw [if_pos hsub0] at h
              by_cases hmem : (K.get ⟨j, hj⟩).sub (K.get ⟨i, hi⟩) ∈ K
              · rw [if_pos hmem] at h
                obtain ⟨hK, hpairs⟩ := ih h
                refine ⟨hK, fun p q hp hq hord hne hsub => ?_⟩
                by_cases hpq : p = i ∧ q = j
                · obtain ⟨rfl, rfl⟩ := hpq
                  exact hmem
                · refine hpairs p q hp hq ?_ hne hsub
                  rcases hord with h1 | ⟨rfl, h2⟩
                  · exact Or.inl h1
                  · rcases Nat.lt_or_ge j q with hlt | hge
                    · exact Or.inr ⟨rfl, hlt⟩
                    · have : q = j := Nat.le_antisymm hge h2
                      exact absurd ⟨rfl, this⟩ hpq
              · rw [if_neg hmem] at h
                have := infer_loop_changed h
                simp at this
            · rw [if_neg hsub0] at h
              obtain ⟨hK, hpairs⟩ := ih h
              refine ⟨hK, fun p q hp hq hord hne hsub => ?_⟩
              by_cases hpq : p = i ∧ q = j
              · obtain ⟨rfl, rfl⟩ := hpq
                exact absurd hsub hsub0
              · refine hpairs p q hp hq ?_ hne hsub
                rcases hord with h1 | ⟨rfl, h2⟩
                · exact Or.inl h1
                · rcases Nat.lt_or_ge j q with hlt | hge
                  · exact Or.inr ⟨rfl, hlt⟩
                  · have : q = j := Nat.le_antisymm hge h2
                    exact absurd ⟨rfl, this⟩ hpq
        · rw [dif_neg hj] at h
          obtain ⟨hK, hpairs⟩ := ih h
          refine ⟨hK, fun p q hp hq hord hne hsub => ?_⟩
          refine hpairs p q hp hq ?_ hne hsub
          omega
      · rw [dif_neg hi] at h
        injection h with h'
        obtain ⟨rfl, -⟩ := Prod.mk.injEq .. ▸ And.intro (congrArg Prod.fst h') (congrArg Prod.snd h')
        refine ⟨rfl, fun p q hp hq hord hne hsub => ?_⟩
        omega

end MinesweeperAI

namespace MinesweeperAI

/-- A round that reports no progress found no safes, no mines, appended
nothing, and leaves a knowledge base closed under the two inference rules. -/
theorem runRound_fixed {sf : ℕ} {st st1 : MinesweeperAI}
    (h : runRound sf st = some (st1, false)) :
    (∀ s ∈ st1.knowledge, s.known_safes = ∅ ∧ s.known_mines = ∅) ∧
    (∀ s1 ∈ st1.knowledge, ∀ s2 ∈ st1.knowledge, s1 ≠ s2 → s1.cells ⊆ s2.cells →
      s2.sub s1 ∈ st1.knowledge) := by
  unfold runRound at h
  cases hscan : infer_loop sf (roundClean (roundMark st)).knowledge 0 0 false with
  | none =>
      rw [hscan] at h
      exact absurd h (by simp)
  | some r =>
      obtain ⟨K, ch2⟩ := r
      rw [hscan] at h
      have hpair := Option.some.inj h
      have hst1 : { roundClean (roundMark st) with knowledge := K } = st1 :=
        congrArg Prod.fst hpair
      have hbool : ((decide (safes_found st.knowledge ≠ ∅) ||
          decide (mines_found st.knowledge ≠ ∅)) || ch2) = false :=
        congrArg Prod.snd hpair
      obtain ⟨h1, hch2⟩ := Bool.or_eq_false_iff.mp hbool
      obtain ⟨hs0, hm0⟩ := Bool.or_eq_false_iff.mp h1
      have hS : safes_found st.knowledge = ∅ := by
        have := of_decide_eq_false hs0
        exact not_not.mp this
      have hM : mines_found st.knowledge = ∅ := by
        have := of_decide_eq_false hm0
        exact not_not.mp this
      rw [hch2] at hscan
      obtain ⟨hK, hpairs⟩ := infer_loop_nochange hscan
      have hround : roundMark st = st := by
        unfold roundMark
        rw [hS, hM, mark_safe_set_empty, mark_mine_set_empty]
      have hknow : st1.knowledge = (roundClean (roundMark st)).knowledge := by
        rw [← hst1]
        exact hK
      have hmemK : ∀ s, s ∈ st1.knowledge → s ∈ st.knowledge := by
        intro s hs
        rw [hknow, hround] at hs
        exact (List.mem_filter.mp hs).1
      constructor
      · intro s hs
        have hs' := hmemK s hs
        constructor
        · refine Finset.eq_empty_iff_forall_not_mem.mpr fun c hc => ?_
          have : c ∈ safes_found st.knowledge :=
            mem_safes_found.mpr ⟨s, hs', hc⟩
          rw [hS] at this
          exact absurd this (Finset.not_mem_empty c)
        · refine Finset.eq_empty_iff_forall_not_mem.mpr fun c hc => ?_
          have : c ∈ mines_found st.knowledge :=
            mem_mines_found.mpr ⟨s, hs', hc⟩
          rw [hM] at this
          exact absurd this (Finset.not_mem_empty c)
      · intro s1 hs1 s2 hs2 hne hsub
        rw [hknow] at hs1 hs2
        obtain ⟨p, hgp⟩ := List.mem_iff_get.mp hs1
        obtain ⟨q, hgq⟩ := List.mem_iff_get.mp hs2
        have := hpairs p.1 q.1 p.2 q.2 (by omega)
          (by rw [show (⟨p.1, p.2⟩ : Fin _) = p from rfl, hgp,
                show (⟨q.1, q.2⟩ : Fin _) = q from rfl, hgq]; exact hne)
          (by rw [show (⟨p.1, p.2⟩ : Fin _) = p from rfl, hgp,
                show (⟨q.1, q.2⟩ : Fin _) = q from rfl, hgq]; exact hsub)
        rw [show (⟨p.1, p.2⟩ : Fin _) = p from rfl, hgp,
          show (⟨q.1, q.2⟩ : Fin _) = q from rfl, hgq] at this
        rw [hknow]
        exact this

theorem closure_fixed_point :
    ∀ {f sf : ℕ} {st st' : MinesweeperAI}, closure f sf st = some st' →
      (∀ s ∈ st'.knowledge, s.known_safes = ∅ ∧ s.known_mines = ∅) ∧
      (∀ s1 ∈ st'.knowledge, ∀ s2 ∈ st'.knowledge, s1 ≠ s2 → s1.cells ⊆ s2.cells →
        s2.sub s1 ∈ st'.knowledge) := by
  intro f
  induction f with
  | zero =>
      intro sf st st' h
      exact absurd h (by rw [closure]; exact Option.noConfusion)
  | succ f ih =>
      intro sf st st' h
      rw [closure] at h
      cases hr : runRound sf st with
      | none =>
          rw [hr] at h
          exact absurd h (by simp)
      | some r =>
          obtain ⟨st1, ch⟩ := r
          rw [hr] at h
          cases ch with
          | true =>
              change closure f sf st1 = some st' at h
              exact ih h
          | false =>
              change some st1 = some st' at h
              have : st1 = st' := Option.some.inj h
              rw [← this]
              exact runRound_fixed hr

end MinesweeperAI

/-- C2: whenever `add_knowledge` returns, the resulting state is a complete
fixed point of the two inference rules: no sentence's `known_safes` or
`known_mines` reaches outside `safes`/`mines` (they are in fact empty), and
for every pair of distinct sentences with `s1.cells ⊆ s2.cells` the derived
sentence `s2 - s1` is already present in the knowledge base. -/
theorem claim_C2 (of sf : ℕ) (st : MinesweeperAI) (cell : Cell) (count : ℤ)
    (st' : MinesweeperAI) (h : add_knowledge of sf st cell count = some st') :
    (∀ s ∈ st'.knowledge, s.known_safes ⊆ st'.safes ∧ s.known_mines ⊆ st'.mines) ∧
    (∀ s1 ∈ st'.knowledge, ∀ s2 ∈ st'.knowledge, s1 ≠ s2 → s1.cells ⊆ s2.cells →
      s2.sub s1 ∈ st'.knowledge) := by
  have hcf := closure_fixed_point
    (show closure of sf (absorb st cell count) = some st' from h)
  refine ⟨fun s hs => ?_, hcf.2⟩
  obtain ⟨h1, h2⟩ := hcf.1 s hs
  rw [h1, h2]
  exact ⟨Finset.empty_subset _, Finset.empty_subset _⟩

/-- The state reached from a fresh 3×3 reasoner by `add_knowledge((0,0), 1)`. -/
def stateA : MinesweeperAI :=
  ⟨3, 3, 1, {(0, 0)}, ∅, {(0, 0)}, [⟨{(0, 1), (1, 0), (1, 1)}, 1⟩], some (0, 0)⟩

theorem claim_C2_witness :
    (add_knowledge 3 10 (MinesweeperAI.init 3 3 1) (0, 0) 1 = some stateA) ∧
    ((∀ s ∈ stateA.knowledge,
        s.known_safes ⊆ stateA.safes ∧ s.known_mines ⊆ stateA.mines) ∧
      (∀ s1 ∈ stateA.knowledge, ∀ s2 ∈ stateA.knowledge, s1 ≠ s2 →
        s1.cells ⊆ s2.cells → s2.sub s1 ∈ stateA.knowledge)) :=
  ⟨by decide, claim_C2 3 10 (MinesweeperAI.init 3 3 1) (0, 0) 1 stateA (by decide)⟩

/-! ## Structure of a round and generic preservation lemmas -/

namespace MinesweeperAI

/-- The effect of one round's marking phase on a single sentence: the safes
`S` are removed without touching the count, then the mines `M` are removed,
decrementing the count once per removed cell. -/
def roundMarkSentence (S M : Finset Cell) (s : Sentence) : Sentence :=
  ⟨(s.cells \ S) \ M, s.count - (((s.cells \ S) ∩ M).card : ℤ)⟩

theorem roundMark_eq (st : MinesweeperAI) :
    roundMark st =
      { st with safes := st.safes ∪ safes_found st.knowledge,
                mines := st.mines ∪ mines_found st.knowledge,
                knowledge := st.knowledge.map
                  (roundMarkSentence (safes_found st.knowledge)
                    (mines_found st.knowledge)) } := by
  unfold roundMark
  rw [mark_safe_set_eq, mark_mine_set_eq]
  cases st with
  | mk h w tm mm mi sa kn lm =>
    simp only [List.map_map, MinesweeperAI.mk.injEq, true_and, and_true]
    repeat' constructor
    all_goals first
      | rfl
      | exact List.map_congr_left fun s _ => rfl

theorem roundMark_safes (st : MinesweeperAI) :
    (roundMark st).safes = st.safes ∪ safes_found st.knowledge := by
  rw [roundMark_eq]

theorem roundMark_mines (st : MinesweeperAI) :
    (roundMark st).mines = st.mines ∪ mines_found st.knowledge := by
  rw [roundMark_eq]

theorem roundMark_height (st : MinesweeperAI) : (roundMark st).height = st.height := by
  rw [roundMark_eq]

theorem roundMark_width (st : MinesweeperAI) : (roundMark st).width = st.width := by
  rw [roundMark_eq]

theorem roundMark_knowledge (st : MinesweeperAI) :
    (roundMark st).knowledge = st.knowledge.map
      (roundMarkSentence (safes_found st.knowledge) (mines_found st.knowledge)) := by
  rw [roundMark_eq]

theorem runRound_some {sf : ℕ} {st st1 : MinesweeperAI} {ch : Bool}
    (h : runRound sf st = some (st1, ch)) :
    ∃ K ch2,
      infer_loop sf (roundClean (roundMark st)).knowledge 0 0 false = some (K, ch2) ∧
      st1 = { roundClean (roundMark st) with knowledge := K } ∧
      ch = ((decide (safes_found st.knowledge ≠ ∅) ||
        decide (mines_found st.knowledge ≠ ∅)) || ch2) := by
  unfold runRound at h
  cases hscan : infer_loop sf (roundClean (roundMark st)).knowledge 0 0 false with
  | none =>
      rw [hscan] at h
      exact absurd h (by simp)
  | some r =>
      obtain ⟨K, ch2⟩ := r
      rw [hscan] at h
      have hpair := Option.some.inj h
      exact ⟨K, ch2, rfl, (congrArg Prod.fst hpair).symm, (congrArg Prod.snd hpair).symm⟩

/-- Preservation of a sentence predicate through the scan, provided `Q` is
closed under the subset-subtraction rule. -/
theorem infer_loop_preserve {Q : Sentence → Prop}
    (HQ : ∀ s1 s2, Q s1 → Q s2 → s1.cells ⊆ s2.cells → Q (s2.sub s1)) :
    ∀ {f : ℕ} {K : List Sentence} {i j : ℕ} {ch : Bool} {K' : List Sentence} {ch' : Bool},
      infer_loop f K i j ch = some (K', ch') → (∀ s ∈ K, Q s) → ∀ s ∈ K', Q s := by
  intro f
  induction f with
  | zero =>
      intro K i j ch K' ch' h
      exact absurd h (by rw [infer_loop]; exact Option.noConfusion)
  | succ f ih =>
      intro K i j ch K' ch' h hK
      rw [infer_loop] at h
      by_cases hi : i < K.length
      · rw [dif_pos hi] at h
        by_cases hj : j < K.length
        · rw [dif_pos hj] at h
          by_cases h12 : K.get ⟨i, hi⟩ = K.get ⟨j, hj⟩
          · rw [if_pos h12] at h
            exact ih h hK
          · rw [if_neg h12] at h
            by_cases hsub : (K.get ⟨i, hi⟩).cells ⊆ (K.get ⟨j, hj⟩).cells
            · rw [if_pos hsub] at h
              by_cases hmem : (K.get ⟨j, hj⟩).sub (K.get ⟨i, hi⟩) ∈ K
              · rw [if_pos hmem] at h
                exact ih h hK
              · rw [if_neg hmem] at h
                refine ih h fun s hs => ?_
                rcases List.mem_append.mp hs with hs | hs
                · exact hK s hs
                · rw [List.mem_singleton.mp hs]
                  exact HQ _ _ (hK _ (K.get_mem i hi)) (hK _ (K.get_mem j hj)) hsub
            · rw [if_neg hsub] at h
              exact ih h hK
        · rw [dif_neg hj] at h
          exact ih h hK
      · rw [dif_neg hi] at h
        have hKK : K = K' := congrArg Prod.fst (Option.some.inj h)
        rw [← hKK]
        exact hK

/-- Preservation of a state predicate through the whole closure loop. -/
theorem closure_preserve {P : MinesweeperAI → Prop}
    (HP : ∀ sf st st1 ch, P st → runRound sf st = some (st1, ch) → P st1) :
    ∀ {f sf : ℕ} {st st' : MinesweeperAI},
      closure f sf st = some st' → P st → P st' := by
  intro f
  induction f with
  | zero =>
      intro sf st st' h
      exact absurd h (by rw [closure]; exact Option.noConfusion)
  | succ f ih =>
      intro sf st st' h hP
      rw [closure] at h
      cases hr : runRound sf st with
      | none =>
          rw [hr] at h
          exact absurd h (by simp)
      | some r =>
          obtain ⟨st1, ch⟩ := r
          rw [hr] at h
          have hP1 := HP sf st st1 ch hP hr
          cases ch with
          | true =>
              change closure f sf st1 = some st' at h
              exact ih h hP1
          | false =>
              change some st1 = some st' at h
              rw [← Option.some.inj h]
              exact hP1

end MinesweeperAI

/-! ## Reachability and state invariants -/

namespace MinesweeperAI

/-- One public API call on the reasoner, with arbitrary arguments (an
`add_knowledge` call contributes a step only when its closure terminates). -/
inductive Step : MinesweeperAI → MinesweeperAI → Prop
  | mark_safe (st : MinesweeperAI) (c : Cell) : Step st (st.mark_safe c)
  | mark_mine (st : MinesweeperAI) (c : Cell) : Step st (st.mark_mine c)
  | add_knowledge (st : MinesweeperAI) (of sf : ℕ) (c : Cell) (n : ℤ)
      (st' : MinesweeperAI) (h : add_knowledge of sf st c n = some st') : Step st st'

/-- Any finite sequence of API calls. -/
def Steps : MinesweeperAI → MinesweeperAI → Prop := Relation.ReflTransGen Step

/-- States reachable from a freshly constructed reasoner by API calls. -/
def ReachableAPI (st : MinesweeperAI) : Prop :=
  ∃ h w tm, Steps (init h w tm) st

/-- No cell of any live sentence is in `safes` or in `mines`. -/
def CellsClean (st : MinesweeperAI) : Prop :=
  ∀ s ∈ st.knowledge, ∀ c ∈ s.cells, c ∉ st.safes ∧ c ∉ st.mines

/-- Every cell of every live sentence is on the board. -/
def KnowledgeInBounds (st : MinesweeperAI) : Prop :=
  ∀ s ∈ st.knowledge, ∀ c ∈ s.cells,
    0 ≤ c.1 ∧ c.1 < st.height ∧ 0 ≤ c.2 ∧ c.2 < st.width

theorem mark_safe_clean {st : MinesweeperAI} {c : Cell} (h : CellsClean st) :
    CellsClean (st.mark_safe c) := by
  intro s' hs' c' hc'
  obtain ⟨s, hs, rfl⟩ := List.mem_map.mp hs'
  rw [Sentence.mark_safe_eq] at hc'
  obtain ⟨hne, hcell⟩ := Finset.mem_erase.mp hc'
  obtain ⟨h1, h2⟩ := h s hs c' hcell
  exact ⟨by simp [mark_safe, Finset.mem_insert, hne, h1], h2⟩

theorem mark_mine_clean {st : MinesweeperAI} {c : Cell} (h : CellsClean st) :
    CellsClean (st.mark_mine c) := by
  intro s' hs' c' hc'
  obtain ⟨s, hs, rfl⟩ := List.mem_map.mp hs'
  have hcell : c' ∈ s.cells ∧ c' ≠ c := by
    unfold Sentence.mark_mine at hc'
    split_ifs at hc' with hmem
    · obtain ⟨hne, hcl⟩ := Finset.mem_erase.mp hc'
      exact ⟨hcl, hne⟩
    · refine ⟨hc', fun heq => hmem ?_⟩
      rw [← heq]
      exact hc'
  obtain ⟨h1, h2⟩ := h s hs c' hcell.1
  exact ⟨h1, by simp [mark_mine, Finset.mem_insert, hcell.2, h2]⟩

theorem mark_safe_inbounds {st : MinesweeperAI} {c : Cell} (h : KnowledgeInBounds st) :
    KnowledgeInBounds (st.mark_safe c) := by
  intro s' hs' c' hc'
  obtain ⟨s, hs, rfl⟩ := List.mem_map.mp hs'
  rw [Sentence.mark_safe_eq] at hc'
  exact h s hs c' (Finset.mem_erase.mp hc').2

theorem mark_mine_inbounds {st : MinesweeperAI} {c : Cell} (h : KnowledgeInBounds st) :
    KnowledgeInBounds (st.mark_mine c) := by
  intro s' hs' c' hc'
  obtain ⟨s, hs, rfl⟩ := List.mem_map.mp hs'
  refine h s hs c' ?_
  unfold Sentence.mark_mine at hc'
  split_ifs at hc' with hmem
  · exact (Finset.mem_erase.mp hc').2
  · exact hc'

theorem absorb_clean {st : MinesweeperAI} {c : Cell} {n : ℤ} (h : CellsClean st) :
    CellsClean (absorb st c n) := by
  intro s' hs' c' hc'
  have hclean2 : CellsClean (observe st c) := by
    intro t ht c0 hc0
    have hmc := @mark_safe_clean st c h
    exact hmc t ht c0 hc0
  rcases List.mem_append.mp hs' with hs0 | hs0
  · exact hclean2 s' hs0 c' hc'
  · rw [List.mem_singleton.mp hs0] at hc'
    obtain ⟨-, hns⟩ := Finset.mem_filter.mp hc'
    exact ⟨hns.1, hns.2.1⟩

theorem absorb_inbounds {st : MinesweeperAI} {c : Cell} {n : ℤ}
    (h : KnowledgeInBounds st) : KnowledgeInBounds (absorb st c n) := by
  intro s' hs' c' hc'
  have hib2 : KnowledgeInBounds (observe st c) := by
    intro t ht c0 hc0
    have hmc := @mark_safe_inbounds st c h
    exact hmc t ht c0 hc0
  rcases List.mem_append.mp hs' with hs0 | hs0
  · exact hib2 s' hs0 c' hc'
  · rw [List.mem_singleton.mp hs0] at hc'
    obtain ⟨-, hns⟩ := Finset.mem_filter.mp hc'
    exact hns.2.2

theorem runRound_clean {sf : ℕ} {st st1 : MinesweeperAI} {ch : Bool}
    (hcl : CellsClean st) (h : runRound sf st = some (st1, ch)) :
    CellsClean st1 := by
  obtain ⟨K, ch2, hscan, hst1, -⟩ := runRound_some h
  have hmark : CellsClean (roundMark st) := by
    intro s' hs' c' hc'
    rw [roundMark_knowledge] at hs'
    obtain ⟨s, hs, rfl⟩ := List.mem_map.mp hs'
    unfold roundMarkSentence at hc'
    obtain ⟨hc1, hcM⟩ := Finset.mem_sdiff.mp hc'
    obtain ⟨hc0, hcS⟩ := Finset.mem_sdiff.mp hc1
    obtain ⟨h1, h2⟩ := hcl s hs c' hc0
    rw [roundMark_safes, roundMark_mines]
    constructor
    · intro hmem
      rcases Finset.mem_union.mp hmem with hx | hx
      · exact h1 hx
      · exact hcS hx
    · intro hmem
      rcases Finset.mem_union.mp hmem with hx | hx
      · exact h2 hx
      · exact hcM hx
  have hclean3 : CellsClean (roundClean (roundMark st)) := by
    intro s' hs' c' hc'
    exact hmark s' (List.mem_filter.mp hs').1 c' hc'
  have hK : ∀ s ∈ K, ∀ c ∈ s.cells,
      c ∉ (roundClean (roundMark st)).safes ∧ c ∉ (roundClean (roundMark st)).mines := by
    refine infer_loop_preserve (Q := fun s => ∀ c ∈ s.cells,
      c ∉ (roundClean (roundMark st)).safes ∧ c ∉ (roundClean (roundMark st)).mines)
      ?_ hscan hclean3
    intro s1 s2 h1 h2 hsub c hc
    exact h2 c (Sentence.sub_cells_subset s2 s1 hc)
  intro s' hs' c' hc'
  rw [hst1] at hs' ⊢
  exact hK s' hs' c' hc'

theorem runRound_inbounds {sf : ℕ} {st st1 : MinesweeperAI} {ch : Bool}
    (hib : KnowledgeInBounds st) (h : runRound sf st = some (st1, ch)) :
    KnowledgeInBounds st1 := by
  obtain ⟨K, ch2, hscan, hst1, -⟩ := runRound_some h
  have hmark : KnowledgeInBounds (roundMark st) := by
    intro s' hs' c' hc'
    rw [roundMark_knowledge] at hs'
    obtain ⟨s, hs, rfl⟩ := List.mem_map.mp hs'
    unfold roundMarkSentence at hc'
    obtain ⟨hc1, -⟩ := Finset.mem_sdiff.mp hc'
    obtain ⟨hc0, -⟩ := Finset.mem_sdiff.mp hc1
    rw [roundMark_height, roundMark_width]
    exact hib s hs c' hc0
  have hclean3 : KnowledgeInBounds (roundClean (roundMark st)) := by
    intro s' hs' c' hc'
    exact hmark s' (List.mem_filter.mp hs').1 c' hc'
  have hK : ∀ s ∈ K, ∀ c ∈ s.cells,
      0 ≤ c.1 ∧ c.1 < (roundClean (roundMark st)).height ∧
        0 ≤ c.2 ∧ c.2 < (roundClean (roundMark st)).width := by
    refine infer_loop_preserve (Q := fun s => ∀ c ∈ s.cells,
      0 ≤ c.1 ∧ c.1 < (roundClean (roundMark st)).height ∧
        0 ≤ c.2 ∧ c.2 < (roundClean (roundMark st)).width)
      ?_ hscan hclean3
    intro s1 s2 h1 h2 hsub c hc
    exact h2 c (Sentence.sub_cells_subset s2 s1 hc)
  intro s' hs' c' hc'
  rw [hst1] at hs' ⊢
  exact hK s' hs' c' hc'

theorem add_knowledge_clean {of sf : ℕ} {st st' : MinesweeperAI} {c : Cell} {n : ℤ}
    (hcl : CellsClean st) (h : add_knowledge of sf st c n = some st') :
    CellsClean st' :=
  closure_preserve (fun _ _ _ _ hp hr => runRound_clean hp hr) h (absorb_clean hcl)

theorem add_knowledge_inbounds {of sf : ℕ} {st st' : MinesweeperAI} {c : Cell} {n : ℤ}
    (hib : KnowledgeInBounds st) (h : add_knowledge of sf st c n = some st') :
    KnowledgeInBounds st' :=
  closure_preserve (fun _ _ _ _ hp hr => runRound_inbounds hp hr) h (absorb_inbounds hib)

theorem step_clean {st st' : MinesweeperAI} (h : Step st st') (hcl : CellsClean st) :
    CellsClean st' := by
  cases h with
  | mark_safe c => exact mark_safe_clean hcl
  | mark_mine c => exact mark_mine_clean hcl
  | add_knowledge of sf c n st2 hadd => exact add_knowledge_clean hcl hadd

theorem step_inbounds {st st' : MinesweeperAI} (h : Step st st')
    (hib : KnowledgeInBounds st) : KnowledgeInBounds st' := by
  cases h with
  | mark_safe c => exact mark_safe_inbounds hib
  | mark_mine c => exact mark_mine_inbounds hib
  | add_knowledge of sf c n st2 hadd => exact add_knowledge_inbounds hib hadd

theorem reachable_clean {st : MinesweeperAI} (h : ReachableAPI st) : CellsClean st := by
  obtain ⟨hh, ww, tm, hsteps⟩ := h
  induction hsteps with
  | refl => intro s hs; exact absurd hs (List.not_mem_nil s)
  | tail hab hbc ih => exact step_clean hbc ih

theorem reachable_inbounds {st : MinesweeperAI} (h : ReachableAPI st) :
    KnowledgeInBounds st := by
  obtain ⟨hh, ww, tm, hsteps⟩ := h
  induction hsteps with
  | refl => intro s hs; exact absurd hs (List.not_mem_nil s)
  | tail hab hbc ih => exact step_inbounds hbc ih

theorem runRound_mono {sf : ℕ} {st st1 : MinesweeperAI} {ch : Bool}
    (h : runRound sf st = some (st1, ch)) :
    st.safes ⊆ st1.safes ∧ st.mines ⊆ st1.mines := by
  obtain ⟨K, ch2, hscan, hst1, -⟩ := runRound_some h
  rw [hst1]
  constructor
  · show st.safes ⊆ (roundMark st).safes
    rw [roundMark_safes]
    exact Finset.subset_union_left
  · show st.mines ⊆ (roundMark st).mines
    rw [roundMark_mines]
    exact Finset.subset_union_left

theorem closure_mono {f sf : ℕ} {st st' : MinesweeperAI}
    (h : closure f sf st = some st') :
    st.safes ⊆ st'.safes ∧ st.mines ⊆ st'.mines := by
  refine closure_preserve (P := fun s => st.safes ⊆ s.safes ∧ st.mines ⊆ s.mines)
    ?_ h ⟨Finset.Subset.refl _, Finset.Subset.refl _⟩
  intro sf' sta stb ch hp hr
  obtain ⟨h1, h2⟩ := runRound_mono hr
  exact ⟨hp.1.trans h1, hp.2.trans h2⟩

theorem add_knowledge_mono {of sf : ℕ} {st st' : MinesweeperAI} {c : Cell} {n : ℤ}
    (h : add_knowledge of sf st c n = some st') :
    st.safes ⊆ st'.safes ∧ st.mines ⊆ st'.mines := by
  obtain ⟨h1, h2⟩ := closure_mono h
  constructor
  · refine Finset.Subset.trans ?_ h1
    show st.safes ⊆ insert c st.safes
    exact Finset.subset_insert c st.safes
  · exact h2

theorem step_mono {st st' : MinesweeperAI} (h : Step st st') :
    st.safes ⊆ st'.safes ∧ st.mines ⊆ st'.mines := by
  cases h with
  | mark_safe c => exact ⟨Finset.subset_insert c st.safes, Finset.Subset.refl _⟩
  | mark_mine c => exact ⟨Finset.Subset.refl _, Finset.subset_insert c st.mines⟩
  | add_knowledge of sf c n st2 hadd => exact add_knowledge_mono hadd

theorem steps_mono {st st' : MinesweeperAI} (h : Steps st st') :
    st.safes ⊆ st'.safes ∧ st.mines ⊆ st'.mines := by
  induction h with
  | refl => exact ⟨Finset.Subset.refl _, Finset.Subset.refl _⟩
  | tail hab hbc ih =>
      obtain ⟨h1, h2⟩ := step_mono hbc
      exact ⟨ih.1.trans h1, ih.2.trans h2⟩

end MinesweeperAI

/-! ## Soundness with respect to an actual mine placement -/

namespace MinesweeperAI

/-- The sentence is true of the actual mine set `M`: exactly `count` of its
cells are mines. -/
def TrueSentence (M : Finset Cell) (s : Sentence) : Prop :=
  s.count = ((s.cells ∩ M).card : ℤ)

theorem mem_board {h w : ℤ} {c : Cell} :
    c ∈ board h w ↔ 0 ≤ c.1 ∧ c.1 < h ∧ 0 ≤ c.2 ∧ c.2 < w := by
  unfold board
  rw [Finset.mem_product]
  simp only [Finset.mem_Icc]
  omega

/-- Subtracting a contained true sentence from a true sentence yields a true
sentence. -/
theorem true_sub {M : Finset Cell} {s1 s2 : Sentence} (h1 : TrueSentence M s1)
    (h2 : TrueSentence M s2) (hsub : s1.cells ⊆ s2.cells) :
    TrueSentence M (s2.sub s1) := by
  show s2.count - s1.count = (((s2.cells \ s1.cells) ∩ M).card : ℤ)
  have hset : (s2.cells \ s1.cells) ∩ M = (s2.cells ∩ M) \ (s1.cells ∩ M) := by
    ext p
    simp only [Finset.mem_inter, Finset.mem_sdiff]
    tauto
  have hss : s1.cells ∩ M ⊆ s2.cells ∩ M :=
    Finset.inter_subset_inter hsub (Finset.Subset.refl M)
  rw [hset, Finset.card_sdiff hss, Nat.cast_sub (Finset.card_le_card hss), h1, h2]

theorem safes_found_not_mine {M : Finset Cell} {K : List Sentence}
    (htrue : ∀ s ∈ K, TrueSentence M s) : ∀ c ∈ safes_found K, c ∉ M := by
  intro c hc hcM
  obtain ⟨s, hs, hcs⟩ := mem_safes_found.mp hc
  rw [Sentence.known_safes] at hcs
  split_ifs at hcs with hcnt
  · have h0 : ((s.cells ∩ M).card : ℤ) = 0 := by rw [← htrue s hs, hcnt]
    have hem : s.cells ∩ M = ∅ := Finset.card_eq_zero.mp (by exact_mod_cast h0)
    have : c ∈ s.cells ∩ M := Finset.mem_inter.mpr ⟨hcs, hcM⟩
    rw [hem] at this
    exact absurd this (Finset.not_mem_empty c)
  · exact absurd hcs (Finset.not_mem_empty c)

theorem mines_found_mine {M : Finset Cell} {K : List Sentence}
    (htrue : ∀ s ∈ K, TrueSentence M s) : ∀ c ∈ mines_found K, c ∈ M := by
  intro c hc
  obtain ⟨s, hs, hcs⟩ := mem_mines_found.mp hc
  rw [Sentence.known_mines] at hcs
  split_ifs at hcs with hcnt
  · obtain ⟨-, hcard⟩ := hcnt
    have hcardN : (s.cells ∩ M).card = s.cells.card := by
      have ht := htrue s hs
      have h2 : ((s.cells.card : ℕ) : ℤ) = (((s.cells ∩ M).card : ℕ) : ℤ) := by
        rw [hcard]
        exact ht
      exact_mod_cast h2.symm
    have hEq : s.cells ∩ M = s.cells :=
      Finset.eq_of_subset_of_card_le Finset.inter_subset_left (le_of_eq hcardN.symm)
    have : c ∈ s.cells ∩ M := by rw [hEq]; exact hcs
    exact (Finset.mem_inter.mp this).2
  · exact absurd hcs (Finset.not_mem_empty c)

theorem sentence_mark_safe_true {M : Finset Cell} {s : Sentence} {c : Cell}
    (hcM : c ∉ M) (h : TrueSentence M s) : TrueSentence M (s.mark_safe c) := by
  rw [Sentence.mark_safe_eq]
  show s.count = ((s.cells.erase c ∩ M).card : ℤ)
  have hset : s.cells.erase c ∩ M = s.cells ∩ M := by
    ext p
    simp only [Finset.mem_inter, Finset.mem_erase]
    constructor
    · rintro ⟨⟨-, h1⟩, h2⟩
      exact ⟨h1, h2⟩
    · rintro ⟨h1, h2⟩
      exact ⟨⟨fun heq => hcM (heq ▸ h2), h1⟩, h2⟩
  rw [hset]
  exact h

theorem sentence_mark_mine_true {M : Finset Cell} {s : Sentence} {c : Cell}
    (hcM : c ∈ M) (h : TrueSentence M s) : TrueSentence M (s.mark_mine c) := by
  unfold Sentence.mark_mine
  split_ifs with hmem
  · show s.count - 1 = ((s.cells.erase c ∩ M).card : ℤ)
    have hers : s.cells.erase c ∩ M = (s.cells ∩ M).erase c := by
      ext p
      simp only [Finset.mem_inter, Finset.mem_erase]
      tauto
    have hcm : c ∈ s.cells ∩ M := Finset.mem_inter.mpr ⟨hmem, hcM⟩
    rw [hers, Finset.card_erase_of_mem hcm,
      Nat.cast_sub (Nat.one_le_iff_ne_zero.mpr (Finset.card_ne_zero_of_mem hcm)), h]
    simp
  · exact h

theorem roundMarkSentence_true {M S Mr : Finset Cell} {s : Sentence}
    (hS : ∀ c ∈ S, c ∉ M) (hMr : Mr ⊆ M) (h : TrueSentence M s) :
    TrueSentence M (roundMarkSentence S Mr s) := by
  show s.count - (((s.cells \ S) ∩ Mr).card : ℤ) =
    ((((s.cells \ S) \ Mr) ∩ M).card : ℤ)
  have hA : (s.cells \ S) ∩ M = s.cells ∩ M := by
    ext p
    simp only [Finset.mem_inter, Finset.mem_sdiff]
    constructor
    · rintro ⟨⟨h1, -⟩, h3⟩
      exact ⟨h1, h3⟩
    · rintro ⟨h1, h3⟩
      exact ⟨⟨h1, fun hp => hS p hp h3⟩, h3⟩
  have hset : ((s.cells \ S) \ Mr) ∩ M =
      ((s.cells \ S) ∩ M) \ ((s.cells \ S) ∩ Mr) := by
    ext p
    simp only [Finset.mem_inter, Finset.mem_sdiff]
    have := @hMr p
    tauto
  have hss : (s.cells \ S) ∩ Mr ⊆ (s.cells \ S) ∩ M :=
    Finset.inter_subset_inter (Finset.Subset.refl _) hMr
  rw [hset, Finset.card_sdiff hss, Nat.cast_sub (Finset.card_le_card hss), hA, h]

/-- The whole-state soundness invariant for an actual mine placement `M`. -/
def Sound (M : Finset Cell) (st : MinesweeperAI) : Prop :=
  (∀ s ∈ st.knowledge, TrueSentence M s) ∧
  st.mines ⊆ M ∧
  (∀ c ∈ st.safes, c ∉ M) ∧
  M ⊆ board st.height st.width

theorem observe_sound {M : Finset Cell} {st : MinesweeperAI} {c : Cell}
    (hs : Sound M st) (hcM : c ∉ M) : Sound M (observe st c) := by
  obtain ⟨htrue, hmines, hsafes, hboard⟩ := hs
  refine ⟨?_, hmines, ?_, hboard⟩
  · intro s' hs'
    rw [observe_knowledge] at hs'
    obtain ⟨s, hsmem, rfl⟩ := List.mem_map.mp hs'
    exact sentence_mark_safe_true hcM (htrue s hsmem)
  · intro c0 hc0
    rw [observe_safes] at hc0
    rcases Finset.mem_insert.mp hc0 with rfl | hc0
    · exact hcM
    · exact hsafes c0 hc0

theorem absorb_sound {M : Finset Cell} {st : MinesweeperAI} {c : Cell} {n : ℤ}
    (hs : Sound M st) (hcM : c ∉ M) (hn : n = ((nbhd c ∩ M).card : ℤ)) :
    Sound M (absorb st c n) := by
  have hobs := observe_sound hs hcM
  obtain ⟨htrue2, hmines2, hsafes2, hboard2⟩ := hobs
  refine ⟨?_, hmines2, hsafes2, hboard2⟩
  intro s' hs'
  rcases List.mem_append.mp hs' with h0 | h0
  · exact htrue2 s' h0
  · rw [List.mem_singleton.mp h0]
    obtain ⟨-, hminesM, hsafesM, hboardM⟩ := hs
    unfold TrueSentence newSentence
    have hFdec : (nbhd c).filter
        (fun p => p ∉ (observe st c).safes ∧ p ∈ (observe st c).mines) =
        nbhd c ∩ st.mines := by
      ext p
      simp only [Finset.mem_filter, Finset.mem_inter, observe_safes, observe_mines,
        Finset.mem_insert]
      constructor
      · rintro ⟨hp, -, hm⟩
        exact ⟨hp, hm⟩
      · rintro ⟨hp, hm⟩
        have hpM : p ∈ M := hminesM hm
        refine ⟨hp, ?_, hm⟩
        rintro (rfl | hsafe)
        · exact hcM hpM
        · exact hsafesM p hsafe hpM
    have hFcells : ((nbhd c).filter
        (fun p => p ∉ (observe st c).safes ∧ p ∉ (observe st c).mines ∧
          0 ≤ p.1 ∧ p.1 < (observe st c).height ∧
          0 ≤ p.2 ∧ p.2 < (observe st c).width)) ∩ M =
        (nbhd c ∩ M) \ st.mines := by
      ext p
      simp only [Finset.mem_filter, Finset.mem_inter, Finset.mem_sdiff,
        observe_safes, observe_mines, observe_height, observe_width,
        Finset.mem_insert]
      constructor
      · rintro ⟨⟨hp, -, hnm, -⟩, hM⟩
        exact ⟨⟨hp, hM⟩, hnm⟩
      · rintro ⟨⟨hp, hM⟩, hnm⟩
        obtain ⟨hb1, hb2, hb3, hb4⟩ := mem_board.mp (hboardM hM)
        refine ⟨⟨hp, ?_, hnm, hb1, hb2, hb3, hb4⟩, hM⟩
        rintro (rfl | hsafe)
        · exact hcM hM
        · exact hsafesM p hsafe hM
    have hmm : (nbhd c ∩ M) ∩ st.mines = nbhd c ∩ st.mines := by
      ext p
      simp only [Finset.mem_inter]
      constructor
      · rintro ⟨⟨hp, -⟩, hm⟩
        exact ⟨hp, hm⟩
      · rintro ⟨hp, hm⟩
        exact ⟨⟨hp, hminesM hm⟩, hm⟩
    rw [hFdec, hFcells, hn, ← Finset.sdiff_inter_self_left,
      Finset.card_sdiff Finset.inter_subset_left,
      Nat.cast_sub (Finset.card_le_card Finset.inter_subset_left), hmm]

theorem runRound_sound {M : Finset Cell} {sf : ℕ} {st st1 : MinesweeperAI} {ch : Bool}
    (hs : Sound M st) (h : runRound sf st = some (st1, ch)) : Sound M st1 := by
  obtain ⟨K, ch2, hscan, hst1, -⟩ := runRound_some h
  obtain ⟨htrue, hmines, hsafes, hboard⟩ := hs
  have hS := safes_found_not_mine htrue
  have hMr : mines_found st.knowledge ⊆ M := fun c hc => mines_found_mine htrue c hc
  have hrm : Sound M (roundMark st) := by
    refine ⟨?_, ?_, ?_, ?_⟩
    · intro s' hs'
      rw [roundMark_knowledge] at hs'
      obtain ⟨s, hsm, rfl⟩ := List.mem_map.mp hs'
      exact roundMarkSentence_true hS hMr (htrue s hsm)
    · rw [roundMark_mines]
      exact Finset.union_subset hmines hMr
    · rw [roundMark_safes]
      intro c hc
      rcases Finset.mem_union.mp hc with h1 | h1
      · exact hsafes c h1
      · exact hS c h1
    · rw [roundMark_height, roundMark_width]
      exact hboard
  obtain ⟨htrue3, hm3, hsf3, hb3⟩ := hrm
  have hK : ∀ s ∈ K, TrueSentence M s := by
    refine infer_loop_preserve (fun s1 s2 h1 h2 hsub => true_sub h1 h2 hsub) hscan ?_
    intro s hmem
    exact htrue3 s (List.mem_filter.mp hmem).1
  rw [hst1]
  exact ⟨hK, hm3, hsf3, hb3⟩

theorem closure_sound {M : Finset Cell} {f sf : ℕ} {st st' : MinesweeperAI}
    (h : closure f sf st = some st') (hs : Sound M st) : Sound M st' :=
  closure_preserve (fun _ _ _ _ hp hr => runRound_sound hp hr) h hs

/-- Contract-respecting reachability: `add_knowledge` is only ever called on
an in-bounds, not previously opened, non-mine cell with the true count of
adjacent mines, for a fixed actual mine placement `M` on the board. -/
inductive ReachableTrue (M : Finset Cell) : MinesweeperAI → Prop
  | init (h w tm : ℤ) (hM : M ⊆ board h w) :
      ReachableTrue M (MinesweeperAI.init h w tm)
  | step {st st' : MinesweeperAI} (of sf : ℕ) (c : Cell)
      (hre : ReachableTrue M st)
      (hcb : c ∈ board st.height st.width)
      (hcmoves : c ∉ st.moves_made)
      (hcM : c ∉ M)
      (hadd : add_knowledge of sf st c ((nbhd c ∩ M).card : ℤ) = some st') :
      ReachableTrue M st'

theorem reachableTrue_sound {M : Finset Cell} {st : MinesweeperAI}
    (h : ReachableTrue M st) : Sound M st := by
  induction h with
  | init h w tm hM =>
      exact ⟨fun s hs => absurd hs (List.not_mem_nil s), Finset.empty_subset M,
        fun c hc => absurd hc (Finset.not_mem_empty c), hM⟩
  | step of sf c hre hcb hcmoves hcM hadd ih =>
      exact closure_sound hadd (absorb_sound ih hcM rfl)

theorem reachableTrue_disjoint {M : Finset Cell} {st : MinesweeperAI}
    (h : ReachableTrue M st) : st.safes ∩ st.mines = ∅ := by
  obtain ⟨-, hmines, hsafes, -⟩ := reachableTrue_sound h
  refine Finset.eq_empty_iff_forall_not_mem.mpr fun c hc => ?_
  obtain ⟨h1, h2⟩ := Finset.mem_inter.mp hc
  exact hsafes c h1 (hmines h2)

end MinesweeperAI

/-- C3: under the caller contract (formalised by `ReachableTrue`: every
`add_knowledge` call receives an in-bounds, not previously opened cell with
its true adjacent-mine count for a fixed mine placement `M`), every sentence
in the knowledge base satisfies `0 ≤ count ≤ |cells|` after every call. -/
theorem claim_C3 (M : Finset Cell) (st : MinesweeperAI) (h : ReachableTrue M st) :
    ∀ s ∈ st.knowledge, 0 ≤ s.count ∧ s.count ≤ (s.cells.card : ℤ) := by
  intro s hs
  have htrue := (reachableTrue_sound h).1 s hs
  rw [htrue]
  constructor
  · exact Int.natCast_nonneg _
  · exact_mod_cast Finset.card_le_card Finset.inter_subset_left

theorem claim_C3_witness :
    ReachableTrue {((1 : ℤ), (1 : ℤ))} stateA ∧
    (∀ s ∈ stateA.knowledge, 0 ≤ s.count ∧ s.count ≤ (s.cells.card : ℤ)) :=
  have hrt : ReachableTrue {((1 : ℤ), (1 : ℤ))} stateA :=
    ReachableTrue.step 3 10 (0, 0)
      (ReachableTrue.init 3 3 1 (by decide)) (by decide) (by decide) (by decide)
      (by decide)
  ⟨hrt, claim_C3 {((1 : ℤ), (1 : ℤ))} stateA hrt⟩

/-- C10: in every reachable state (any sequence of API calls, in particular
all sequences of `add_knowledge` calls on in-bounds cells), every cell of
every sentence in the knowledge base lies inside `[0,height) × [0,width)`:
fresh sentences are bounds-filtered at construction and derived sentences
only use cells of existing sentences. -/
theorem claim_C10 (st : MinesweeperAI) (h : ReachableAPI st) :
    ∀ s ∈ st.knowledge, ∀ c ∈ s.cells,
      0 ≤ c.1 ∧ c.1 < st.height ∧ 0 ≤ c.2 ∧ c.2 < st.width :=
  reachable_inbounds h

theorem claim_C10_witness :
    ReachableAPI stateA ∧
    (∀ s ∈ stateA.knowledge, ∀ c ∈ s.cells,
      0 ≤ c.1 ∧ c.1 < stateA.height ∧ 0 ≤ c.2 ∧ c.2 < stateA.width) :=
  have hre : ReachableAPI stateA :=
    ⟨3, 3, 1, Relation.ReflTransGen.single
      (Step.add_knowledge (MinesweeperAI.init 3 3 1) 3 10 (0, 0) 1 stateA (by decide))⟩
  ⟨hre, claim_C10 stateA hre⟩

/-- C4 (amended): across every sequence of `add_knowledge`, `mark_safe` and
`mark_mine` calls the sets `safes` and `mines` only grow and a cell that has
entered `safes` or `mines` is absent from every live sentence's cell set;
the disjointness `safes ∩ mines = ∅` additionally holds across sequences of
contract-respecting `add_knowledge` calls, but not across arbitrary direct
`mark_safe`/`mark_mine` calls (see the counterexample). -/
theorem claim_C4 :
    (∀ st st' : MinesweeperAI, Steps st st' →
      st.safes ⊆ st'.safes ∧ st.mines ⊆ st'.mines) ∧
    (∀ st : MinesweeperAI, ReachableAPI st →
      ∀ s ∈ st.knowledge, ∀ c ∈ s.cells, c ∉ st.safes ∧ c ∉ st.mines) ∧
    (∀ (M : Finset Cell) (st : MinesweeperAI), ReachableTrue M st →
      st.safes ∩ st.mines = ∅) :=
  ⟨fun _ _ h => steps_mono h, fun _ h => reachable_clean h,
    fun _ _ h => reachableTrue_disjoint h⟩

/-- The claim's `safes ∩ mines = ∅` fails as stated: from a fresh reasoner,
`mark_safe((0,0))` followed by `mark_mine((0,0))` — a sequence of the very
calls the claim quantifies over — leaves `(0,0)` in both sets. -/
theorem claim_C4_counterexample :
    ReachableAPI (((MinesweeperAI.init 10 10 10).mark_safe (0, 0)).mark_mine (0, 0)) ∧
    ((((MinesweeperAI.init 10 10 10).mark_safe (0, 0)).mark_mine (0, 0)).safes ∩
      (((MinesweeperAI.init 10 10 10).mark_safe (0, 0)).mark_mine (0, 0)).mines ≠ ∅) :=
  ⟨⟨10, 10, 10,
      Relation.ReflTransGen.tail
        (Relation.ReflTransGen.single (Step.mark_safe (MinesweeperAI.init 10 10 10) (0, 0)))
        (Step.mark_mine ((MinesweeperAI.init 10 10 10).mark_safe (0, 0)) (0, 0))⟩,
    by decide⟩

theorem claim_C4_witness :
    (Steps (MinesweeperAI.init 3 3 1) stateA ∧ ReachableAPI stateA ∧
      ReachableTrue {((1 : ℤ), (1 : ℤ))} stateA) ∧
    (((MinesweeperAI.init 3 3 1).safes ⊆ stateA.safes ∧
        (MinesweeperAI.init 3 3 1).mines ⊆ stateA.mines) ∧
      (∀ s ∈ stateA.knowledge, ∀ c ∈ s.cells, c ∉ stateA.safes ∧ c ∉ stateA.mines) ∧
      stateA.safes ∩ stateA.mines = ∅) :=
  have hsteps : Steps (MinesweeperAI.init 3 3 1) stateA :=
    Relation.ReflTransGen.single
      (Step.add_knowledge (MinesweeperAI.init 3 3 1) 3 10 (0, 0) 1 stateA (by decide))
  have hre : ReachableAPI stateA := ⟨3, 3, 1, hsteps⟩
  have hrt : ReachableTrue {((1 : ℤ), (1 : ℤ))} stateA :=
    ReachableTrue.step 3 10 (0, 0)
      (ReachableTrue.init 3 3 1 (by decide)) (by decide) (by decide) (by decide)
      (by decide)
  ⟨⟨hsteps, hre, hrt⟩,
    ⟨claim_C4.1 (MinesweeperAI.init 3 3 1) stateA hsteps,
      claim_C4.2.1 stateA hre,
      claim_C4.2.2 {((1 : ℤ), (1 : ℤ))} stateA hrt⟩⟩

/-! ## Divergence of the closure loop on a contradictory observation

After the contract call `add_knowledge((0,0), 1)` on a fresh 3×3 reasoner
(with the mine at `(1,1)`), a second call `add_knowledge((0,0), 2)` — out of
contract: the cell was already opened and 2 is not its true count — puts two
sentences with the same cells but different counts in the knowledge base.
The pairwise scan then derives the empty sentence `∅ = 1`, and subtracting it
from ever newer sentences manufactures an endless stream of fresh sentences:
the inner `for s2 in self.knowledge` loop chases the growing list forever. -/

namespace MinesweeperAI

end MinesweeperAI

namespace MinesweeperAI

end MinesweeperAI

namespace MinesweeperAI

end MinesweeperAI

namespace MinesweeperAI

end MinesweeperAI

namespace MinesweeperAI

end MinesweeperAI

